import Mathlib

/-!
Shallow embedding of the `fexp` LMDB dataset layer
(`src/fexp/lmdb.py` and `src/fexp/utils/__init__.py`).

The source is Python-2-era code: `str` values are byte strings, so both keys
and values of the store are modelled as `List Nat` (one `Nat` per byte).
NumPy arrays are modelled by their shape, dtype tag and the row-major
flattened list of element bit patterns (each element value is the `Nat`
reading of its `itemsize` raw bytes).
-/

namespace Fexp

/-- Byte strings (Python 2 `str`): one `Nat` per byte. -/
abbrev Bytes := List Nat

/-- Literal byte string built from a Lean string literal. -/
def bs (s : String) : Bytes := s.data.map Char.toNat

/-! ## ByteCodec: array (de)serialization

`encode_array` embeds `np.ascontiguousarray(image).tobytes()`: the raw
row-major element bytes, no header and no padding.  `decode_array` embeds
`np.ndarray(shape, dtype, buffer=buf)`: an array view over the byte buffer
(`none` when the buffer is too short for `prod(shape)` elements, where
NumPy raises). -/

/-- Fixed-width little-endian byte encoding of one element bit pattern. -/
def natToLE : Nat → Nat → Bytes
  | 0, _ => []
  | w + 1, n => n % 256 :: natToLE w (n / 256)

/-- Read back a little-endian byte list as a `Nat`. -/
def leToNat : Bytes → Nat
  | [] => 0
  | b :: t => b + 256 * leToNat t

/-- A NumPy dtype: its canonical name (e.g. `"float32"`) and byte width. -/
structure Dtype where
  name : Bytes
  itemsize : Nat
  deriving DecidableEq, Repr

/-- An n-dimensional array: shape, dtype, and the row-major flattened list of
element bit patterns (each `< 256 ^ itemsize`). -/
structure NDArray where
  shape : List Nat
  dtype : Dtype
  elems : List Nat
  deriving DecidableEq, Repr

/-- Embeds `np.ascontiguousarray(a).tobytes()`: concatenated row-major element bytes. -/
def encode_array (a : NDArray) : Bytes :=
  a.elems.flatMap (natToLE a.dtype.itemsize)

/-- Split a byte buffer into `count` consecutive `w`-byte elements. -/
def decodeChunks (w : Nat) : Nat → Bytes → List Nat
  | 0, _ => []
  | c + 1, b => leToNat (b.take w) :: decodeChunks w c (b.drop w)

/-- Embeds `np.ndarray(shape, dtype, buffer=buf)`: array view over raw bytes; NumPy
raises when the buffer holds fewer than `prod(shape)` elements. -/
def decode_array (buf : Bytes) (shape : List Nat) (dtype : Dtype) : Option NDArray :=
  if shape.prod * dtype.itemsize ≤ buf.length then
    some ⟨shape, dtype, decodeChunks dtype.itemsize shape.prod buf⟩
  else
    none

/-! ## Textual integers (`json.dumps` of an `int` / `json.loads` of its text) -/

/-- Little-endian decimal digit bytes of `n` (fuel-indexed, fuel `≥ n` suffices). -/
def toDecAux : Nat → Nat → Bytes
  | 0, _ => []
  | _ + 1, 0 => []
  | f + 1, n => (48 + n % 10) :: toDecAux f (n / 10)

/-- Embeds `json.dumps(n)` for a nonnegative `int`: decimal digits, no leading zero. -/
def encNat (n : Nat) : Bytes :=
  if n = 0 then [48] else (toDecAux n n).reverse

/-- Embeds `int(json.loads(s))` for a byte string holding a nonnegative decimal
integer: all bytes must be digits and no leading zero is accepted. -/
def decNatOpt (b : Bytes) : Option Nat :=
  if b = [] then none
  else if b.all (fun c => 48 ≤ c && c ≤ 57) then
    if b.head? = some 48 && decide (1 < b.length) then none
    else some (b.foldl (fun acc c => acc * 10 + (c - 48)) 0)
  else none

/-! ## Metadata encoding (`json.dumps(dict(shape=..., dtype=...))`) -/

/-- The metadata dictionary `dict(shape=data.shape, dtype=str(data.dtype))`. -/
structure MetaD where
  shape : List Nat
  dtype : Bytes
  deriving DecidableEq, Repr

/-- Comma-space separated concatenation (Python's default JSON separator). -/
def sepJoin : List Bytes → Bytes
  | [] => []
  | [x] => x
  | x :: y :: t => x ++ bs ", " ++ sepJoin (y :: t)

/-- Embeds `json.dumps(dict(shape=shape, dtype=dtype))`, byte for byte:
the text is of the form
`\x7b"shape": [s0, s1, ...], "dtype": "name"\x7d`
(the braces are bytes 123 and 125). -/
def encMeta (m : MetaD) : Bytes :=
  [123] ++ bs "\"shape\": [" ++ sepJoin (m.shape.map encNat) ++
    bs "], \"dtype\": \"" ++ m.dtype ++ [34, 125]

/-! ## The LMDB store and the growable write path (`write_kv_to_lmdb`)

An LMDB environment is modelled by its entry list (insertion order; the
engine's cursor view is the byte-lexicographically sorted view, see
`sortEntries`) together with its `map_size` capacity limit.
`txn.put` replaces the value of an existing key and otherwise adds the pair;
a put raises `MapFullError` exactly when the value needs more capacity than
the current `map_size` (the capacity-exhaustion condition of the spec). -/

/-- An open LMDB environment: committed entries plus the `map_size` limit. -/
structure Lmdb where
  entries : List (Bytes × Bytes)
  mapSize : Nat
  deriving DecidableEq, Repr

/-- Default `map_size` of `py-lmdb` (10485760 bytes), used by `lmdb.open`. -/
def LMDB_DEFAULT_MAPSIZE : Nat := 10485760

/-- A committed `txn.put(key, value)`: replace an existing key's value in
place, else append the new pair. -/
def putEntry (es : List (Bytes × Bytes)) (k v : Bytes) : List (Bytes × Bytes) :=
  if es.any (fun e => e.1 = k) then
    es.map (fun e => if e.1 = k then (k, v) else e)
  else
    es ++ [(k, v)]

/-- The `while not success` loop of `write_kv_to_lmdb`: attempt the put; on
`MapFullError` abort the transaction (no entry change), double `map_size`
(`db.set_mapsize(curr_limit * 2)`), and retry.  The loop is fuel-indexed
because the source loop is unbounded; `write_kv_to_lmdb` supplies fuel that
is proved sufficient whenever `map_size` is positive. -/
def write_kv_loop : Nat → Lmdb → Bytes → Bytes → Lmdb
  | 0, db, _, _ => db
  | fuel + 1, db, key, value =>
    if value.length ≤ db.mapSize then
      { db with entries := putEntry db.entries key value }
    else
      write_kv_loop fuel { db with mapSize := db.mapSize * 2 } key value

/-- Embeds `write_kv_to_lmdb(db, key, value)`. -/
def write_kv_to_lmdb (db : Lmdb) (key value : Bytes) : Lmdb :=
  write_kv_loop (value.length + 1) db key value

/-! ## `build_db` -/

/-- The Python objects that appear in the `cases` argument: a byte string or
a 2-tuple of byte strings. -/
inductive PyObj where
  | str (s : Bytes)
  | tup (x y : Bytes)
  deriving DecidableEq, Repr

/-- Python `len` on a case element: string length, or 2 for a 2-tuple. -/
def pyLen : PyObj → Nat
  | .str s => s.length
  | .tup _ _ => 2

/-- Python tuple unpacking `x, y = case`: a 2-tuple unpacks to its parts; a
byte string of length 2 unpacks to its two single-byte characters; anything
else raises `ValueError`. -/
def unpack2 : PyObj → Option (Bytes × Bytes)
  | .str s => if s.length = 2 then some (s.take 1, s.drop 1) else none
  | .tup x y => some (x, y)

/-- Python `'{}'.format(obj)`: a byte string formats to itself; a 2-tuple of
byte strings formats to its `repr`. -/
def pyFormat : PyObj → Bytes
  | .str s => s
  | .tup x y => [40, 39] ++ x ++ [39, 44, 32, 39] ++ y ++ [39, 41]

/-- Apply a fallible function to every element; `none` when any application
fails (the Option-monad `map` used below for Python loops that can raise). -/
def mapOpt {α β : Type} (f : α → Option β) : List α → Option (List β)
  | [] => some []
  | a :: t =>
    match f a, mapOpt f t with
    | some b, some bt => some (b :: bt)
    | _, _ => none

/-- The key/payload dispatch at the top of `build_db`:
`if len(cases[0]) == 2: keys = [x for x, y in cases]; cases = [y for x, y in cases]
else: keys = cases.copy()`.
`none` models a raised exception (`IndexError` on empty `cases`,
`ValueError` when an element does not unpack into two parts). -/
def splitCases : List PyObj → Option (List PyObj × List PyObj)
  | [] => none
  | c0 :: rest =>
    if pyLen c0 = 2 then
      match mapOpt unpack2 (c0 :: rest) with
      | none => none
      | some ps => some (ps.map (fun p => PyObj.str p.1), ps.map (fun p => PyObj.str p.2))
    else
      some (c0 :: rest, c0 :: rest)

/-- Embeds `metadata = dict(shape=data.shape, dtype=str(data.dtype))`. -/
def metaOf (a : NDArray) : MetaD := ⟨a.shape, a.dtype.name⟩

/-- The sequence of `(key, value)` puts issued for one case by the body of
`build_db`'s loop: `K_len ↦ json.dumps(len(ndarrays))`, then for each `i`
the two puts of `write_data_to_lmdb` (`K_i ↦ raw bytes`,
`K_i_metadata ↦ json.dumps(metadata)`). -/
def caseWrites (load_fn : PyObj → List NDArray) (keyObj payload : PyObj) :
    List (Bytes × Bytes) :=
  let ndarrays := load_fn payload
  let key := pyFormat keyObj
  (key ++ bs "_len", encNat ndarrays.length) ::
    ndarrays.enum.flatMap (fun p =>
      [(key ++ bs "_" ++ encNat p.1, encode_array p.2),
       (key ++ bs "_" ++ encNat p.1 ++ bs "_metadata", encMeta (metaOf p.2))])

/-- All puts issued by `build_db`'s main loop, in order. -/
def buildWrites (load_fn : PyObj → List NDArray) (keys payloads : List PyObj) :
    List (Bytes × Bytes) :=
  (keys.zip payloads).flatMap (fun kp => caseWrites load_fn kp.1 kp.2)

/-! ## The side key file (`write_list` / `read_list` from `fexp.utils`) -/

/-- Python 2 `str.strip`'s whitespace bytes: space, TAB, LF, VT, FF, CR. -/
def isSpaceB (c : Nat) : Bool :=
  c = 32 || c = 9 || c = 10 || c = 11 || c = 12 || c = 13

/-- Python `line.strip()`: drop leading and trailing whitespace bytes. -/
def pyStrip (b : Bytes) : Bytes :=
  ((b.dropWhile isSpaceB).reverse.dropWhile isSpaceB).reverse

/-- Embeds `write_list(input_list, filename)` (fresh file, `append=False`): the file
content is `line.strip() + '\n'` for each entry in order. -/
def write_list (l : List Bytes) : Bytes :=
  l.foldr (fun s acc => pyStrip s ++ [10] ++ acc) []

/-- Split file content into the lines yielded by `for line in f`, without
the `'\n'` terminators (a trailing newline yields no extra empty line). -/
def splitLinesAux : Bytes → Bytes → List Bytes
  | [], acc => if acc = [] then [] else [acc.reverse]
  | c :: rest, acc =>
    if c = 10 then acc.reverse :: splitLinesAux rest []
    else splitLinesAux rest (c :: acc)

/-- The lines of a file's content. -/
def splitLines (b : Bytes) : List Bytes := splitLinesAux b []

/-- Embeds `read_list(filename)`: each line of the file, stripped. -/
def read_list (content : Bytes) : List Bytes :=
  (splitLines content).map pyStrip

/-- The `keys` argument must be plain byte strings for `write_list` (`line.strip()` on a
tuple raises `AttributeError`, modelled as `none`). -/
def strKeys : List PyObj → Option (List Bytes)
  | [] => some []
  | .str s :: t => (strKeys t).map (fun l => s :: l)
  | .tup _ _ :: _ => none

/-- Embeds `build_db(path, db_name, cases, load_fn)`: dispatch `cases` into keys and
payloads, run the write loop against a fresh store with the default
`map_size`, and finally `write_list` the case keys to the side key file.
Returns the closed store and the side file's content, or `none` when the
Python code raises.  (The loop `for idx, case in enumerate(cases)` with its
nested `write_data_to_lmdb` calls issues exactly the puts of
`buildWrites`, in order.) -/
def build_db (cases : List PyObj) (load_fn : PyObj → List NDArray) :
    Option (Lmdb × Bytes) :=
  match splitCases cases with
  | none => none
  | some (keys, payloads) =>
    let db := (buildWrites load_fn keys payloads).foldl
      (fun d kv => write_kv_to_lmdb d kv.1 kv.2)
      { entries := [], mapSize := LMDB_DEFAULT_MAPSIZE }
    match strKeys keys with
    | none => none
    | some ks => some (db, write_list ks)

/-! ## The reader (`LmdbDb`) -/

/-- Byte-lexicographic order on byte strings (LMDB's default key order). -/
def lexLe : Bytes → Bytes → Bool
  | [], _ => true
  | _ :: _, [] => false
  | a :: as, b :: bt => if a < b then true else if a = b then lexLe as bt else false

/-- The engine's view of the entries: a cursor iterates the store's pairs in
byte-lexicographic key order. -/
def sortEntries (es : List (Bytes × Bytes)) : List (Bytes × Bytes) :=
  es.insertionSort (fun p q => lexLe p.1 q.1 = true)

/-- Python `sub in s` on byte strings: substring containment. -/
def isInfixB (sub : Bytes) : Bytes → Bool
  | [] => sub.isEmpty
  | c :: t => sub.isPrefixOf (c :: t) || isInfixB sub t

/-- The derivation of the case-key list when the side key file is missing:
`[key[:-len('_len')] for key, _ in txn.cursor() if '_len' in key]` — every
stored key that CONTAINS `'_len'` as a substring, with its last four bytes
removed, in cursor (byte-lexicographic) order. -/
def deriveKeys (store : Lmdb) : List Bytes :=
  (sortEntries store.entries).filterMap (fun p =>
    if isInfixB (bs "_len") p.1 then some (p.1.take (p.1.length - 4)) else none)

/-- Modelled from the spec's words, for comparison with `deriveKeys`:
"collecting every key whose name ends in the `_len` suffix, stripping the
suffix". -/
def spec_deriveKeys (store : Lmdb) : List Bytes :=
  (sortEntries store.entries).filterMap (fun p =>
    if (bs "_len").isSuffixOf p.1 then some (p.1.take (p.1.length - 4)) else none)

/-- The state of an open `LmdbDb` reader right after `__init__`. -/
structure LmdbDb where
  store : Lmdb
  _keys : List Bytes
  length : Nat
  deriving DecidableEq, Repr

/-- The tail of `LmdbDb.__init__` once the key list is known: `keys[0]`
raises on an empty list, then
`itemlen = 2 * int(json.loads(str(txn.get(keys[0] + '_len')))) + 1` and
`length = entries / itemlen`; `none` models a raised exception (`IndexError`
on an empty key list, `json.loads` failing on a missing or non-numeric
`_len` value). -/
def openDbAux (store : Lmdb) (ks : List Bytes) : Option LmdbDb :=
  match ks with
  | [] => none
  | k0 :: _ =>
    match List.lookup (k0 ++ bs "_len") store.entries with
    | none => none
    | some v =>
      match decNatOpt v with
      | none => none
      | some m => some ⟨store, ks, store.entries.length / (2 * m + 1)⟩

/-- Embeds `LmdbDb.__init__`: load the key list from the side key file when present,
else derive it with `deriveKeys` and persist it with `write_list`; then run
the length computation of `openDbAux`.  The result is the reader (or `none`
when `__init__` raises) paired with the side key file's content after the
call — when the side file was missing it has already been written before the
length computation runs, so it is written even if that computation raises. -/
def openDb (store : Lmdb) (sideFile : Option Bytes) : Option LmdbDb × Bytes :=
  match sideFile with
  | some content => (openDbAux store (read_list content), content)
  | none => (openDbAux store (deriveKeys store), write_list (deriveKeys store))

/-- The Python exceptions the reader's methods can raise. -/
inductive PyErr where
  | keyError (k : Bytes)
  | typeError
  | valueError
  deriving DecidableEq, Repr

/-- Parse a leading decimal digit run. -/
def parseDigits : Bytes → Nat → Bytes → Option (Nat × Bytes)
  | [], _, _ => none
  | c :: t, acc, seen =>
    if 48 ≤ c ∧ c ≤ 57 then
      match t with
      | [] => some (acc * 10 + (c - 48), [])
      | c2 :: t2 =>
        if 48 ≤ c2 ∧ c2 ≤ 57 then parseDigits (c2 :: t2) (acc * 10 + (c - 48)) (seen ++ [c])
        else some (acc * 10 + (c - 48), c2 :: t2)
    else none

/-- Parse the `[s0, s1, ...]` part of the metadata text. -/
def parseShape : Nat → Bytes → Option (List Nat × Bytes)
  | 0, _ => none
  | _ + 1, 93 :: rest => some ([], rest)
  | fuel + 1, b =>
    match parseDigits b 0 [] with
    | none => none
    | some (n, rest) =>
      match rest with
      | 93 :: rest2 => some ([n], rest2)
      | 44 :: 32 :: rest2 =>
        match parseShape fuel rest2 with
        | some (l, rest3) => some (n :: l, rest3)
        | none => none
      | _ => none

/-- Embeds `json.loads` of the metadata text produced by `encMeta`: recovers the
`shape`/`dtype` dictionary, `none` on malformed text (where `json.loads`
raises). -/
def decMeta (b : Bytes) : Option MetaD :=
  let pre := [123] ++ bs "\"shape\": ["
  if pre.isPrefixOf b then
    match parseShape b.length (b.drop pre.length) with
    | none => none
    | some (shape, rest) =>
      let mid := bs ", \"dtype\": \""
      if mid.isPrefixOf rest then
        let d := (rest.drop mid.length).takeWhile (fun c => c ≠ 34)
        if (rest.drop mid.length).drop d.length = [34, 125] then
          some ⟨shape, d⟩
        else none
      else none
  else none

/-- Embeds `np.dtype(name)` for the dtype names this model knows: maps a canonical
NumPy type-name string to its dtype (a partial table suffices here). -/
def dtypeOfName (name : Bytes) : Option Dtype :=
  if name = bs "uint8" then some ⟨bs "uint8", 1⟩
  else if name = bs "int32" then some ⟨bs "int32", 4⟩
  else if name = bs "int64" then some ⟨bs "int64", 8⟩
  else if name = bs "float32" then some ⟨bs "float32", 4⟩
  else if name = bs "float64" then some ⟨bs "float64", 8⟩
  else if name = bs "uint16" then some ⟨bs "uint16", 2⟩
  else none

/-- Embeds `LmdbDb._getsubitem(key, txn)`: fetch the raw bytes and the metadata,
decode the metadata, and build the array view.  `none` models the exception
paths (missing metadata, malformed metadata, unknown dtype, short buffer). -/
def _getsubitem (entries : List (Bytes × Bytes)) (key : Bytes) : Option NDArray :=
  match List.lookup key entries, List.lookup (key ++ bs "_metadata") entries with
  | some buf, some meta_buf =>
    match decMeta meta_buf with
    | none => none
    | some md =>
      match dtypeOfName md.dtype with
      | none => none
      | some dt => decode_array buf md.shape dt
  | _, _ => none

/-- Embeds `LmdbDb.__getitem__`: raise `KeyError(key)` when `key` is not in the
in-memory key list; otherwise read `key_len` and collect the `n` subitems.
The reader state is threaded through and returned so that the (absent)
mutation of the store and of the key cache is observable. -/
def getItem (r : LmdbDb) (key : Bytes) : Except PyErr (List NDArray) × LmdbDb :=
  if key ∈ r._keys then
    match (List.lookup (key ++ bs "_len") r.store.entries).bind decNatOpt with
    | none => (Except.error PyErr.valueError, r)
    | some n =>
      match mapOpt (fun i => _getsubitem r.store.entries (key ++ bs "_" ++ encNat i))
          (List.range n) with
      | none => (Except.error PyErr.valueError, r)
      | some arrs => (Except.ok arrs, r)
  else (Except.error (PyErr.keyError key), r)

/-- Embeds `LmdbDb.__delitem__`:
`idx = self._keys.index[key]; self._keys.pop(idx, None)`.
`self._keys` is a Python list and `list.index` is a bound method, so the
subscript `self._keys.index[key]` raises `TypeError` before any state is
touched — the reader and the store are left unchanged for every argument.
(Even if the first line read `.index(key)`, `list.pop(idx, None)` passes two
arguments to `list.pop` and also raises `TypeError`.) -/
def delItem (_r : LmdbDb) (_key : Bytes) : Except PyErr LmdbDb :=
  Except.error PyErr.typeError

/-! ## Lemmas about the byte codec -/

theorem length_natToLE (w : Nat) : ∀ n, (natToLE w n).length = w := by
  induction w with
  | zero => intro n; rfl
  | succ w ih => intro n; simp [natToLE, ih]

theorem leToNat_natToLE (w : Nat) : ∀ n, n < 256 ^ w → leToNat (natToLE w n) = n := by
  induction w with
  | zero =>
    intro n h
    simp only [pow_zero, Nat.lt_one_iff] at h
    simp [h, natToLE, leToNat]
  | succ w ih =>
    intro n h
    have hdiv : n / 256 < 256 ^ w := by
      rw [Nat.div_lt_iff_lt_mul (by norm_num : 0 < 256)]
      calc n < 256 ^ (w + 1) := h
        _ = 256 ^ w * 256 := by ring
    simp only [natToLE, leToNat, ih _ hdiv]
    exact Nat.mod_add_div n 256

theorem length_flatMap_natToLE (w : Nat) (l : List Nat) :
    (l.flatMap (natToLE w)).length = l.length * w := by
  induction l with
  | nil => simp
  | cons e t ih => simp [List.flatMap_cons, ih, length_natToLE, Nat.succ_mul, Nat.add_comm]

theorem take_append_exact {α : Type} (l₁ l₂ : List α) (w : Nat) (h : l₁.length = w) :
    (l₁ ++ l₂).take w = l₁ := by
  subst h; exact List.take_left _ _

theorem drop_append_exact {α : Type} (l₁ l₂ : List α) (w : Nat) (h : l₁.length = w) :
    (l₁ ++ l₂).drop w = l₂ := by
  subst h; exact List.drop_left _ _

theorem decodeChunks_flatMap (w : Nat) :
    ∀ l : List Nat, (∀ e ∈ l, e < 256 ^ w) →
      decodeChunks w l.length (l.flatMap (natToLE w)) = l := by
  intro l
  induction l with
  | nil => intro _; rfl
  | cons e t ih =>
    intro hb
    have hw : (natToLE w e).length = w := length_natToLE w e
    have ht : List.take w (natToLE w e ++ t.flatMap (natToLE w)) = natToLE w e :=
      take_append_exact _ _ _ hw
    have hd : List.drop w (natToLE w e ++ t.flatMap (natToLE w)) = t.flatMap (natToLE w) :=
      drop_append_exact _ _ _ hw
    simp only [List.flatMap_cons, List.length_cons, decodeChunks, ht, hd]
    rw [leToNat_natToLE w e (hb e (List.mem_cons_self e t)),
      ih (fun x hx => hb x (List.mem_cons_of_mem e hx))]

/-- C2: For every array `a` with shape `S` and dtype `T`, encoding it to
contiguous row-major bytes (`np.ascontiguousarray(a).tobytes()`) and then
decoding those bytes with the separately supplied shape and dtype
(`np.ndarray(S, T, buffer=...)`) yields an array element-wise equal to `a`.
The hypotheses say that `a` is a well-formed array: its flattened element
list has `prod(S)` entries and each element bit pattern fits in `T`'s
item size. -/
theorem C2_decode_encode_roundtrip (a : NDArray)
    (hlen : a.elems.length = a.shape.prod)
    (hbound : ∀ e ∈ a.elems, e < 256 ^ a.dtype.itemsize) :
    decode_array (encode_array a) a.shape a.dtype = some a := by
  have hsize : (encode_array a).length = a.shape.prod * a.dtype.itemsize := by
    rw [encode_array, length_flatMap_natToLE, hlen]
  rw [decode_array, if_pos (le_of_eq hsize.symm)]
  have : decodeChunks a.dtype.itemsize a.shape.prod (encode_array a) = a.elems := by
    rw [← hlen, encode_array]
    exact decodeChunks_flatMap _ _ hbound
  rw [this]

/-- Witness for C2 at a concrete two-element `uint16` array. -/
theorem C2_decode_encode_roundtrip_witness :
    ((⟨[2, 1], ⟨bs "uint16", 2⟩, [300, 7]⟩ : NDArray).elems.length
        = (⟨[2, 1], ⟨bs "uint16", 2⟩, [300, 7]⟩ : NDArray).shape.prod) ∧
      decode_array (encode_array ⟨[2, 1], ⟨bs "uint16", 2⟩, [300, 7]⟩) [2, 1] ⟨bs "uint16", 2⟩
        = some ⟨[2, 1], ⟨bs "uint16", 2⟩, [300, 7]⟩ :=
  ⟨by decide, C2_decode_encode_roundtrip ⟨[2, 1], ⟨bs "uint16", 2⟩, [300, 7]⟩
    (by decide) (by decide)⟩

/-! ## Lemmas about the growable write path -/

/-- Ceiling division, `⌈a / b⌉` on naturals. -/
def ceilDiv (a b : Nat) : Nat := (a + b - 1) / b

theorem ceilDiv_le_iff (a b m : Nat) (hb : 0 < b) : ceilDiv a b ≤ m ↔ a ≤ b * m := by
  rw [ceilDiv, Nat.div_le_iff_le_mul_add_pred hb]
  omega

/-- Unrolled specification of the retry loop: with enough fuel it commits the
put, and the final `map_size` is the initial one doubled `g` times where
every strictly smaller number of doublings still leaves the value oversized. -/
theorem write_kv_loop_spec (k v : Bytes) : ∀ (f : Nat) (db : Lmdb),
    v.length ≤ db.mapSize * 2 ^ f →
    ∃ g, (∀ j, j < g → db.mapSize * 2 ^ j < v.length) ∧
      write_kv_loop (f + 1) db k v =
        ⟨putEntry db.entries k v, db.mapSize * 2 ^ g⟩ := by
  intro f
  induction f with
  | zero =>
    intro db h
    simp only [pow_zero, Nat.mul_one] at h
    refine ⟨0, fun j hj => absurd hj (Nat.not_lt_zero j), ?_⟩
    simp [write_kv_loop, h]
  | succ f ih =>
    intro db h
    by_cases hle : v.length ≤ db.mapSize
    · refine ⟨0, fun j hj => absurd hj (Nat.not_lt_zero j), ?_⟩
      simp [write_kv_loop, hle]
    · have h2 : v.length ≤ (db.mapSize * 2) * 2 ^ f := by
        calc v.length ≤ db.mapSize * 2 ^ (f + 1) := h
          _ = (db.mapSize * 2) * 2 ^ f := by ring
      obtain ⟨g, hmin, hres⟩ := ih { db with mapSize := db.mapSize * 2 } h2
      refine ⟨g + 1, ?_, ?_⟩
      · intro j hj
        cases j with
        | zero => simpa using Nat.lt_of_not_le hle
        | succ j =>
          have := hmin j (Nat.lt_of_succ_lt_succ hj)
          calc db.mapSize * 2 ^ (j + 1) = (db.mapSize * 2) * 2 ^ j := by ring
            _ < v.length := this
      · have : write_kv_loop (f + 1 + 1) db k v =
            write_kv_loop (f + 1) { db with mapSize := db.mapSize * 2 } k v := by
          simp [write_kv_loop, hle]
        rw [this, hres]
        congr 1
        ring

/-- C1: `write_kv_to_lmdb` on a store whose capacity may be smaller than the
value requires: each capacity-exhaustion failure aborts the transaction
(nothing but the single committed put reaches the entries), doubles the
capacity limit and retries; the put succeeds after `g` growth retries with
`g ≤ ceil(log2(value_size / initial_capacity))`, and the final capacity is
the power-of-two multiple `initial * 2 ^ g` of the initial capacity. -/
theorem C1_write_kv_growth (db : Lmdb) (k v : Bytes) (hpos : 0 < db.mapSize) :
    ∃ g, g ≤ Nat.clog 2 (ceilDiv v.length db.mapSize) ∧
      write_kv_to_lmdb db k v = ⟨putEntry db.entries k v, db.mapSize * 2 ^ g⟩ := by
  have hfuel : v.length ≤ db.mapSize * 2 ^ v.length := by
    calc v.length ≤ 2 ^ v.length := Nat.le_of_lt (Nat.lt_two_pow _)
      _ = 1 * 2 ^ v.length := (Nat.one_mul _).symm
      _ ≤ db.mapSize * 2 ^ v.length := Nat.mul_le_mul_right _ hpos
  obtain ⟨g, hmin, hres⟩ := write_kv_loop_spec k v v.length db hfuel
  refine ⟨g, ?_, hres⟩
  cases g with
  | zero => exact Nat.zero_le _
  | succ g =>
    have hlt : db.mapSize * 2 ^ g < v.length := hmin g (Nat.lt_succ_self g)
    have : ¬ ceilDiv v.length db.mapSize ≤ 2 ^ g := by
      rw [ceilDiv_le_iff _ _ _ hpos]
      omega
    have hlt2 := Nat.lt_of_not_le this
    rw [Nat.pow_lt_iff_lt_clog (by norm_num : 1 < 2)] at hlt2
    exact hlt2

/-- Witness for C1: initial capacity 1, five-byte value; three doublings
suffice (`ceil(log2(5/1)) = 3`). -/
theorem C1_write_kv_growth_witness :
    0 < (⟨[], 1⟩ : Lmdb).mapSize ∧
      ∃ g, g ≤ Nat.clog 2 (ceilDiv (bs "hello").length (⟨[], 1⟩ : Lmdb).mapSize) ∧
        write_kv_to_lmdb ⟨[], 1⟩ (bs "k") (bs "hello") =
          ⟨putEntry ([] : List (Bytes × Bytes)) (bs "k") (bs "hello"), 1 * 2 ^ g⟩ :=
  ⟨by decide, C1_write_kv_growth ⟨[], 1⟩ (bs "k") (bs "hello") (by decide)⟩

/-- A single grown write, seen at the entry level: the committed entries are
exactly the previous ones with the one put applied, and the capacity stays
positive. -/
theorem write_kv_entries (db : Lmdb) (k v : Bytes) (hpos : 0 < db.mapSize) :
    (write_kv_to_lmdb db k v).entries = putEntry db.entries k v ∧
      0 < (write_kv_to_lmdb db k v).mapSize := by
  have hfuel : v.length ≤ db.mapSize * 2 ^ v.length := by
    calc v.length ≤ 2 ^ v.length := Nat.le_of_lt (Nat.lt_two_pow _)
      _ = 1 * 2 ^ v.length := (Nat.one_mul _).symm
      _ ≤ db.mapSize * 2 ^ v.length := Nat.mul_le_mul_right _ hpos
  obtain ⟨g, _, hres⟩ := write_kv_loop_spec k v v.length db hfuel
  rw [write_kv_to_lmdb, hres]
  exact ⟨rfl, Nat.mul_pos hpos (Nat.pos_pow_of_pos g (by norm_num))⟩

/-- The write loop of `build_db`, seen at the entry level. -/
theorem foldl_write_kv (ws : List (Bytes × Bytes)) : ∀ db : Lmdb, 0 < db.mapSize →
    (ws.foldl (fun d kv => write_kv_to_lmdb d kv.1 kv.2) db).entries =
        ws.foldl (fun es kv => putEntry es kv.1 kv.2) db.entries ∧
      0 < (ws.foldl (fun d kv => write_kv_to_lmdb d kv.1 kv.2) db).mapSize := by
  induction ws with
  | nil => intro db h; exact ⟨rfl, h⟩
  | cons kv t ih =>
    intro db h
    obtain ⟨he, hp⟩ := write_kv_entries db kv.1 kv.2 h
    obtain ⟨ihe, ihp⟩ := ih (write_kv_to_lmdb db kv.1 kv.2) hp
    simp only [List.foldl_cons]
    exact ⟨by rw [ihe, he], ihp⟩

/-- Key-distinct puts into a store accumulate exactly as the written list. -/
theorem foldl_putEntry_nodup :
    ∀ (ws es : List (Bytes × Bytes)), (((es ++ ws).map Prod.fst).Nodup) →
      ws.foldl (fun es kv => putEntry es kv.1 kv.2) es = es ++ ws := by
  intro ws
  induction ws with
  | nil => intro es _; simp
  | cons kv t ih =>
    intro es hnd
    have hmap : (es ++ kv :: t).map Prod.fst =
        es.map Prod.fst ++ kv.1 :: t.map Prod.fst := by simp
    rw [hmap] at hnd
    have hk : kv.1 ∉ es.map Prod.fst := by
      rcases List.nodup_append.mp hnd with ⟨-, -, hdisj⟩
      intro hmem
      exact hdisj hmem (List.mem_cons_self _ _)
    have hput : putEntry es kv.1 kv.2 = es ++ [(kv.1, kv.2)] := by
      rw [putEntry, if_neg]
      simp only [List.any_eq_true, not_exists, not_and]
      intro e he hfst
      have heq : e.1 = kv.1 := of_decide_eq_true hfst
      exact hk (heq ▸ List.mem_map_of_mem Prod.fst he)
    have hnd2 : (((es ++ [(kv.1, kv.2)]) ++ t).map Prod.fst).Nodup := by
      simpa using hnd
    simp only [List.foldl_cons, hput]
    rw [ih _ hnd2]
    simp

/-- In a store whose keys are distinct, lookup finds the stored pair. -/
theorem lookup_of_mem_nodup :
    ∀ (l : List (Bytes × Bytes)) (k v : Bytes),
      ((l.map Prod.fst).Nodup) → (k, v) ∈ l → List.lookup k l = some v := by
  intro l
  induction l with
  | nil => intro k v _ hm; cases hm
  | cons e t ih =>
    intro k v hnd hm
    rcases List.mem_cons.mp hm with heq | hmt
    · cases heq
      simp [List.lookup]
    · have hne : k ≠ e.1 := by
        intro hkeq
        have : e.1 ∈ t.map Prod.fst := hkeq ▸ List.mem_map_of_mem Prod.fst hmt
        exact (List.nodup_cons.mp (by simpa using hnd)).1 this
      have hbeq : (k == e.1) = false := beq_eq_false_iff_ne.mpr hne
      simp only [List.lookup, hbeq]
      exact ih k v (List.nodup_cons.mp (by simpa using hnd)).2 hmt

/-! ## Lemmas about the decimal codec -/

/-- Value read back from little-endian decimal digit bytes. -/
def ofDigitsLE : Bytes → Nat
  | [] => 0
  | d :: t => (d - 48) + 10 * ofDigitsLE t

theorem toDecAux_zero : ∀ f, toDecAux f 0 = [] := by
  intro f; cases f <;> rfl

theorem toDecAux_spec : ∀ (f n : Nat), 0 < n → n ≤ f →
    (∀ d ∈ toDecAux f n, 48 ≤ d ∧ d ≤ 57) ∧
      ofDigitsLE (toDecAux f n) = n ∧
      toDecAux f n ≠ [] ∧
      (toDecAux f n).getLast? ≠ some 48 := by
  intro f
  induction f with
  | zero => intro n h1 h2; omega
  | succ f ih =>
    intro n h1 h2
    have hmod : n % 10 < 10 := Nat.mod_lt _ (by norm_num)
    by_cases hdiv : n / 10 = 0
    · have hn10 : n < 10 := by omega
      have hm : n % 10 = n := Nat.mod_eq_of_lt hn10
      have hunfold : toDecAux (f + 1) n = [48 + n % 10] := by
        cases n with
        | zero => omega
        | succ m => simp [toDecAux, hdiv, toDecAux_zero]
      refine ⟨?_, ?_, ?_, ?_⟩ <;> rw [hunfold]
      · intro d hd
        simp only [List.mem_singleton] at hd
        omega
      · simp [ofDigitsLE]; omega
      · simp
      · simp; omega
    · have hdpos : 0 < n / 10 := Nat.pos_of_ne_zero hdiv
      have hdle : n / 10 ≤ f := by
        have : n / 10 < n := Nat.div_lt_self h1 (by norm_num)
        omega
      obtain ⟨ihd, ihv, ihne, ihlast⟩ := ih (n / 10) hdpos hdle
      have hunfold : toDecAux (f + 1) n = (48 + n % 10) :: toDecAux f (n / 10) := by
        cases n with
        | zero => omega
        | succ m => simp [toDecAux]
      refine ⟨?_, ?_, ?_, ?_⟩ <;> rw [hunfold]
      · intro d hd
        rcases List.mem_cons.mp hd with h | h
        · omega
        · exact ihd d h
      · simp only [ofDigitsLE, ihv]
        omega
      · simp
      · cases htail : toDecAux f (n / 10) with
        | nil => exact absurd htail ihne
        | cons b bt =>
          rw [htail] at ihlast
          rw [List.getLast?_cons_cons]
          exact ihlast

theorem foldl_dec_reverse : ∀ (l : Bytes) (acc : Nat),
    l.reverse.foldl (fun a c => a * 10 + (c - 48)) acc =
      acc * 10 ^ l.length + ofDigitsLE l := by
  intro l
  induction l with
  | nil => intro acc; simp [ofDigitsLE]
  | cons d t ih =>
    intro acc
    simp only [List.reverse_cons, List.foldl_append, List.foldl_cons, List.foldl_nil, ih,
      ofDigitsLE, List.length_cons]
    ring

/-- Round trip: `json.loads` inverts `json.dumps` on nonnegative integers. -/
theorem decNatOpt_encNat (n : Nat) : decNatOpt (encNat n) = some n := by
  by_cases h0 : n = 0
  · subst h0; decide
  · have hpos : 0 < n := Nat.pos_of_ne_zero h0
    obtain ⟨hd, hv, hne, hlast⟩ := toDecAux_spec n n hpos (le_refl n)
    have henc : encNat n = (toDecAux n n).reverse := by rw [encNat, if_neg h0]
    rw [decNatOpt, henc]
    rw [if_neg (by simpa using hne)]
    rw [if_pos]
    · rw [if_neg]
      · congr 1
        rw [foldl_dec_reverse]
        simpa using hv
      · intro hcontra
        rcases Bool.and_eq_true _ _ |>.mp hcontra with ⟨hhead, -⟩
        simp only [decide_eq_true_eq] at hhead
        rw [List.head?_reverse] at hhead
        exact hlast hhead
    · rw [List.all_eq_true]
      intro d hdm
      have := hd d (List.mem_reverse.mp hdm)
      simp only [Bool.and_eq_true, decide_eq_true_eq]
      omega

/-! ## Lemmas about `build_db` -/

theorem mapOpt_unpack2_tup : ∀ ps : List (Bytes × Bytes),
    mapOpt unpack2 (ps.map (fun p => PyObj.tup p.1 p.2)) = some ps := by
  intro ps
  induction ps with
  | nil => rfl
  | cons p t ih => simp [mapOpt, unpack2, ih]

/-- The dispatch on a nonempty all-pairs `cases`: the first components become
the keys and the second components the loader payloads. -/
theorem splitCases_pairs (ps : List (Bytes × Bytes)) (hne : ps ≠ []) :
    splitCases (ps.map (fun p => PyObj.tup p.1 p.2)) =
      some (ps.map (fun p => PyObj.str p.1), ps.map (fun p => PyObj.str p.2)) := by
  cases ps with
  | nil => exact absurd rfl hne
  | cons p t =>
    show splitCases (PyObj.tup p.1 p.2 :: t.map (fun p => PyObj.tup p.1 p.2)) = _
    rw [splitCases]
    have h := mapOpt_unpack2_tup (p :: t)
    simp only [List.map_cons] at h
    simp [pyLen, h]

theorem strKeys_map_str {α : Type} : ∀ (l : List α) (f : α → Bytes),
    strKeys (l.map fun a => PyObj.str (f a)) = some (l.map f) := by
  intro l f
  induction l with
  | nil => rfl
  | cons s t ih => simp [strKeys, ih]

theorem mem_enum_get (l : List NDArray) (i : Nat) (hi : i < l.length) :
    (i, l.get ⟨i, hi⟩) ∈ l.enum := by
  rw [List.mem_enum_iff_get?]
  exact List.get?_eq_get hi

/-- Full specification of `build_db` on `(key, payload)` pairs with
non-colliding record keys: the resulting store's entries are exactly the
issued writes, the side key file receives the case keys, and every record
of every case can be looked up. -/
theorem build_db_spec (ps : List (Bytes × Bytes)) (load_fn : PyObj → List NDArray)
    (hne : ps ≠ [])
    (hnd : ((buildWrites load_fn (ps.map fun p => PyObj.str p.1)
        (ps.map fun p => PyObj.str p.2)).map Prod.fst).Nodup) :
    ∃ db : Lmdb,
      build_db (ps.map fun p => PyObj.tup p.1 p.2) load_fn
          = some (db, write_list (ps.map Prod.fst)) ∧
        db.entries = buildWrites load_fn (ps.map fun p => PyObj.str p.1)
          (ps.map fun p => PyObj.str p.2) ∧
        ∀ kp ∈ ps,
          List.lookup (kp.1 ++ bs "_len") db.entries
              = some (encNat (load_fn (PyObj.str kp.2)).length) ∧
            ∀ i (hi : i < (load_fn (PyObj.str kp.2)).length),
              List.lookup (kp.1 ++ bs "_" ++ encNat i) db.entries
                  = some (encode_array ((load_fn (PyObj.str kp.2)).get ⟨i, hi⟩)) ∧
                List.lookup (kp.1 ++ bs "_" ++ encNat i ++ bs "_metadata") db.entries
                  = some (encMeta (metaOf ((load_fn (PyObj.str kp.2)).get ⟨i, hi⟩))) := by
  set ws := buildWrites load_fn (ps.map fun p => PyObj.str p.1)
    (ps.map fun p => PyObj.str p.2) with hws
  set db := ws.foldl (fun d kv => write_kv_to_lmdb d kv.1 kv.2)
    { entries := [], mapSize := LMDB_DEFAULT_MAPSIZE } with hdb
  have hentries : db.entries = ws := by
    obtain ⟨he, -⟩ := foldl_write_kv ws ⟨[], LMDB_DEFAULT_MAPSIZE⟩ (by norm_num [LMDB_DEFAULT_MAPSIZE])
    rw [hdb, he]
    exact foldl_putEntry_nodup ws [] (by simpa using hnd)
  refine ⟨db, ?_, hentries, ?_⟩
  · rw [build_db, splitCases_pairs ps hne]
    have hsk : strKeys (ps.map fun p => PyObj.str p.1) = some (ps.map Prod.fst) :=
      strKeys_map_str ps Prod.fst
    dsimp only
    rw [hsk]
  · intro kp hkp
    have hzip : ((ps.map fun p => PyObj.str p.1).zip (ps.map fun p => PyObj.str p.2)) =
        ps.map (fun p => (PyObj.str p.1, PyObj.str p.2)) := List.zip_map' _ _ ps
    have hmemzip : (PyObj.str kp.1, PyObj.str kp.2) ∈
        ((ps.map fun p => PyObj.str p.1).zip (ps.map fun p => PyObj.str p.2)) := by
      rw [hzip]
      exact List.mem_map_of_mem _ hkp
    have hcase : caseWrites load_fn (PyObj.str kp.1) (PyObj.str kp.2) ⊆ ws := by
      intro x hx
      rw [hws, buildWrites]
      exact List.mem_flatMap.mpr ⟨(PyObj.str kp.1, PyObj.str kp.2), hmemzip, hx⟩
    have hlookup : ∀ x ∈ caseWrites load_fn (PyObj.str kp.1) (PyObj.str kp.2),
        List.lookup x.1 db.entries = some x.2 := by
      intro x hx
      rw [hentries]
      exact lookup_of_mem_nodup ws x.1 x.2 hnd (hcase hx)
    refine ⟨?_, ?_⟩
    · have := hlookup (kp.1 ++ bs "_len", encNat (load_fn (PyObj.str kp.2)).length)
        (by rw [caseWrites]; exact List.mem_cons_self _ _)
      exact this
    · intro i hi
      have hienum : (i, (load_fn (PyObj.str kp.2)).get ⟨i, hi⟩) ∈
          (load_fn (PyObj.str kp.2)).enum := mem_enum_get _ i hi
      constructor
      · refine hlookup (kp.1 ++ bs "_" ++ encNat i,
          encode_array ((load_fn (PyObj.str kp.2)).get ⟨i, hi⟩)) ?_
        rw [caseWrites]
        refine List.mem_cons_of_mem _ (List.mem_flatMap.mpr ⟨_, hienum, ?_⟩)
        exact List.mem_cons_self _ _
      · refine hlookup (kp.1 ++ bs "_" ++ encNat i ++ bs "_metadata",
          encMeta (metaOf ((load_fn (PyObj.str kp.2)).get ⟨i, hi⟩))) ?_
        rw [caseWrites]
        refine List.mem_cons_of_mem _ (List.mem_flatMap.mpr ⟨_, hienum, ?_⟩)
        exact List.mem_cons_of_mem _ (List.mem_cons_self _ _)

/-- C3: after a `build_db` over `(key, payload)` pairs, every case key `K`
whose loader call returned `n` arrays has `K_len ↦ textual n` in the store,
and for every `i < n` the store maps `K_i` to the `i`-th array's encoded
bytes and `K_i_metadata` to its encoded shape/dtype dictionary; after all
cases the case-key list, in input order, is persisted to the side key file.
The `Nodup` hypothesis says the generated record keys do not collide (the
store overwrites on key collision). -/
theorem C3_build_db_records (ps : List (Bytes × Bytes)) (load_fn : PyObj → List NDArray)
    (hne : ps ≠ [])
    (hnd : ((buildWrites load_fn (ps.map fun p => PyObj.str p.1)
        (ps.map fun p => PyObj.str p.2)).map Prod.fst).Nodup) :
    ∃ db : Lmdb,
      build_db (ps.map fun p => PyObj.tup p.1 p.2) load_fn
          = some (db, write_list (ps.map Prod.fst)) ∧
        ∀ kp ∈ ps,
          List.lookup (kp.1 ++ bs "_len") db.entries
              = some (encNat (load_fn (PyObj.str kp.2)).length) ∧
            ∀ i (hi : i < (load_fn (PyObj.str kp.2)).length),
              List.lookup (kp.1 ++ bs "_" ++ encNat i) db.entries
                  = some (encode_array ((load_fn (PyObj.str kp.2)).get ⟨i, hi⟩)) ∧
                List.lookup (kp.1 ++ bs "_" ++ encNat i ++ bs "_metadata") db.entries
                  = some (encMeta (metaOf ((load_fn (PyObj.str kp.2)).get ⟨i, hi⟩))) := by
  obtain ⟨db, hbuild, -, hlook⟩ := build_db_spec ps load_fn hne hnd
  exact ⟨db, hbuild, hlook⟩

/-- Demo array, loader and case list used by the concrete witnesses. -/
def demoArr : NDArray := ⟨[2], ⟨bs "uint8", 1⟩, [5, 6]⟩

def demoLoader : PyObj → List NDArray := fun _ => [demoArr]

def demoPairs : List (Bytes × Bytes) := [(bs "a", bs "p"), (bs "b", bs "q")]

/-- Witness for C3 at two concrete cases with one array each. -/
theorem C3_build_db_records_witness :
    demoPairs ≠ [] ∧
      ∃ db : Lmdb,
        build_db (demoPairs.map fun p => PyObj.tup p.1 p.2) demoLoader
            = some (db, write_list (demoPairs.map Prod.fst)) ∧
          ∀ kp ∈ demoPairs,
            List.lookup (kp.1 ++ bs "_len") db.entries
                = some (encNat (demoLoader (PyObj.str kp.2)).length) ∧
              ∀ i (hi : i < (demoLoader (PyObj.str kp.2)).length),
                List.lookup (kp.1 ++ bs "_" ++ encNat i) db.entries
                    = some (encode_array ((demoLoader (PyObj.str kp.2)).get ⟨i, hi⟩)) ∧
                  List.lookup (kp.1 ++ bs "_" ++ encNat i ++ bs "_metadata") db.entries
                    = some (encMeta (metaOf ((demoLoader (PyObj.str kp.2)).get ⟨i, hi⟩))) :=
  ⟨by decide, C3_build_db_records demoPairs demoLoader (by decide) (by decide)⟩

/-! ## Lemmas about the reader's length computation -/

theorem length_flatMap_two {α β : Type} (f g : α → β) :
    ∀ l : List α, (l.flatMap (fun p => [f p, g p])).length = 2 * l.length := by
  intro l
  induction l with
  | nil => rfl
  | cons a t ih =>
    simp only [List.flatMap_cons, List.length_append, ih, List.length_cons, List.length_nil]
    omega

theorem caseWrites_length (load_fn : PyObj → List NDArray) (kO pO : PyObj) :
    (caseWrites load_fn kO pO).length = 1 + 2 * (load_fn pO).length := by
  rw [caseWrites]
  simp only [List.length_cons]
  rw [length_flatMap_two]
  simp [List.enum_length]
  omega

theorem buildWrites_length (load_fn : PyObj → List NDArray) (m : Nat) :
    ∀ ps : List (Bytes × Bytes), (∀ kp ∈ ps, (load_fn (PyObj.str kp.2)).length = m) →
      (buildWrites load_fn (ps.map fun p => PyObj.str p.1)
          (ps.map fun p => PyObj.str p.2)).length = ps.length * (2 * m + 1) := by
  intro ps
  induction ps with
  | nil => intro _; simp [buildWrites]
  | cons p t ih =>
    intro hm
    rw [buildWrites, List.zip_map'] at ih ⊢
    simp only [List.map_cons, List.flatMap_cons, List.length_append]
    rw [ih (fun kp hkp => hm kp (List.mem_cons_of_mem p hkp))]
    rw [caseWrites_length, hm p (List.mem_cons_self p t)]
    simp [List.length_cons]
    ring

/-! ## Lemmas about `write_list` / `read_list` -/

/-- A list is front-clean when a leading `dropWhile` removes nothing. -/
theorem dropWhile_dropWhile (p : Nat → Bool) (l : Bytes) :
    (l.dropWhile p).dropWhile p = l.dropWhile p := by
  induction l with
  | nil => rfl
  | cons a t ih =>
    by_cases h : p a
    · simp [List.dropWhile_cons, h, ih]
    · simp [List.dropWhile_cons, h]

theorem length_dropWhile_le_self (p : Nat → Bool) : ∀ l : Bytes,
    (l.dropWhile p).length ≤ l.length := by
  intro l
  induction l with
  | nil => exact Nat.le_refl _
  | cons a t ih =>
    by_cases h : p a
    · rw [List.dropWhile_cons, if_pos h]
      exact Nat.le_succ_of_le ih
    · rw [List.dropWhile_cons, if_neg h]

theorem dropWhile_eq_self_of_prefix (p : Nat → Bool) :
    ∀ (t l : Bytes), l.dropWhile p = l → t <+: l → t.dropWhile p = t := by
  intro t
  cases t with
  | nil => intro l _ _; rfl
  | cons a t2 =>
    intro l hl hpre
    cases l with
    | nil => exact absurd (List.prefix_nil.mp hpre) (by simp)
    | cons b l2 =>
      obtain ⟨hab, -⟩ := List.cons_prefix_cons.mp hpre
      subst hab
      by_cases h : p a
      · exfalso
        rw [List.dropWhile_cons, if_pos h] at hl
        have := congrArg List.length hl
        have hle := length_dropWhile_le_self p l2
        simp at this
        omega
      · simp [List.dropWhile_cons, h]

/-- Stripping twice equals stripping once: `str.strip` is idempotent. -/
theorem pyStrip_idem (b : Bytes) : pyStrip (pyStrip b) = pyStrip b := by
  set p := isSpaceB
  set d1 := b.dropWhile p with hd1
  have hfront_d1 : d1.dropWhile p = d1 := dropWhile_dropWhile p b
  have hrev : (pyStrip b).reverse = d1.reverse.dropWhile p := by
    rw [pyStrip, List.reverse_reverse]
  have hpre : pyStrip b <+: d1 := by
    have hsuf : d1.reverse.dropWhile p <:+ d1.reverse := List.dropWhile_suffix p
    have := List.reverse_prefix.mpr hsuf
    rw [List.reverse_reverse] at this
    rw [pyStrip]
    exact this
  have hfront_s : (pyStrip b).dropWhile p = pyStrip b :=
    dropWhile_eq_self_of_prefix p (pyStrip b) d1 hfront_d1 hpre
  have hback_s : (pyStrip b).reverse.dropWhile p = (pyStrip b).reverse := by
    rw [hrev]
    exact dropWhile_dropWhile p d1.reverse
  show ((((pyStrip b).dropWhile p).reverse.dropWhile p)).reverse = pyStrip b
  rw [hfront_s, hback_s, List.reverse_reverse]

theorem splitLinesAux_append (rest : Bytes) :
    ∀ (a acc : Bytes), (10 : Nat) ∉ a →
      splitLinesAux (a ++ 10 :: rest) acc = (acc.reverse ++ a) :: splitLinesAux rest [] := by
  intro a
  induction a with
  | nil => intro acc _; simp [splitLinesAux]
  | cons c t ih =>
    intro acc h10
    have hc : c ≠ 10 := fun h => h10 (h ▸ List.mem_cons_self c t)
    show splitLinesAux (c :: (t ++ 10 :: rest)) acc = _
    rw [splitLinesAux, if_neg (by simpa using hc)]
    rw [ih (c :: acc) (fun h => h10 (List.mem_cons_of_mem c h))]
    simp

/-- Round trip: `read_list` after `write_list` gives every entry comes back stripped, as long
as no entry strips to something still containing a newline byte. -/
theorem read_list_write_list (l : List Bytes) (h : ∀ s ∈ l, (10 : Nat) ∉ pyStrip s) :
    read_list (write_list l) = l.map pyStrip := by
  induction l with
  | nil => rfl
  | cons s t ih =>
    have hw : write_list (s :: t) = pyStrip s ++ 10 :: write_list t := by
      rw [write_list, List.foldr_cons]
      simp [write_list]
    rw [read_list, hw, splitLines,
      splitLinesAux_append (write_list t) (pyStrip s) [] (h s (List.mem_cons_self s t))]
    simp only [List.reverse_nil, List.nil_append, List.map_cons]
    rw [pyStrip_idem]
    have := ih (fun x hx => h x (List.mem_cons_of_mem s hx))
    rw [read_list, splitLines] at this
    rw [this]

/-- C4: for a dataset built from `N` cases that all have the same array
count `m`, the reader computes the dataset length as the store-wide entry
count divided by `2 * m + 1`, and `len(dataset) = N`.  The cleanliness
hypothesis says the case keys survive the side file round trip (they carry
no surrounding whitespace and no newline byte). -/
theorem C4_reader_length (ps : List (Bytes × Bytes)) (load_fn : PyObj → List NDArray)
    (m : Nat) (hne : ps ≠ [])
    (hnd : ((buildWrites load_fn (ps.map fun p => PyObj.str p.1)
        (ps.map fun p => PyObj.str p.2)).map Prod.fst).Nodup)
    (hm : ∀ kp ∈ ps, (load_fn (PyObj.str kp.2)).length = m)
    (hclean : ∀ kp ∈ ps, pyStrip kp.1 = kp.1 ∧ (10 : Nat) ∉ kp.1) :
    ∃ (db : Lmdb) (side : Bytes) (r : LmdbDb),
      build_db (ps.map fun p => PyObj.tup p.1 p.2) load_fn = some (db, side) ∧
        (openDb db (some side)).1 = some r ∧
        db.entries.length = ps.length * (2 * m + 1) ∧
        r.length = db.entries.length / (2 * m + 1) ∧
        r.length = ps.length := by
  obtain ⟨db, hbuild, hent, hlook⟩ := build_db_spec ps load_fn hne hnd
  have hcnt : db.entries.length = ps.length * (2 * m + 1) := by
    rw [hent]
    exact buildWrites_length load_fn m ps hm
  have h10 : ∀ s ∈ ps.map Prod.fst, (10 : Nat) ∉ pyStrip s := by
    intro s hs
    obtain ⟨kp, hkp, rfl⟩ := List.mem_map.mp hs
    rw [(hclean kp hkp).1]
    exact (hclean kp hkp).2
  have hid : ∀ s ∈ ps.map Prod.fst, pyStrip s = s := by
    intro s hs
    obtain ⟨kp, hkp, rfl⟩ := List.mem_map.mp hs
    exact (hclean kp hkp).1
  have hkeys : read_list (write_list (ps.map Prod.fst)) = ps.map Prod.fst := by
    rw [read_list_write_list _ h10]
    calc (ps.map Prod.fst).map pyStrip = (ps.map Prod.fst).map id :=
          List.map_congr_left hid
      _ = ps.map Prod.fst := List.map_id _
  cases ps with
  | nil => exact absurd rfl hne
  | cons p t =>
    have hmem : p ∈ p :: t := List.mem_cons_self p t
    have hlen0 : List.lookup (p.1 ++ bs "_len") db.entries = some (encNat m) := by
      have := (hlook p hmem).1
      rwa [hm p hmem] at this
    refine ⟨db, write_list ((p :: t).map Prod.fst), ⟨db, (p :: t).map Prod.fst,
      db.entries.length / (2 * m + 1)⟩, hbuild, ?_, hcnt, rfl, ?_⟩
    · rw [openDb]
      dsimp only
      rw [hkeys]
      simp only [List.map_cons, openDbAux]
      rw [hlen0]
      dsimp only
      rw [decNatOpt_encNat]
    · show db.entries.length / (2 * m + 1) = (p :: t).length
      rw [hcnt]
      exact Nat.mul_div_cancel _ (by omega)

/-- Loader returning three arrays per case, for the C4 witness (`m = 3`). -/
def demoLoader3 : PyObj → List NDArray := fun _ => [demoArr, demoArr, demoArr]

/-- Witness for C4: two cases with three arrays each; the reader length is 2. -/
theorem C4_reader_length_witness :
    demoPairs ≠ [] ∧
      ∃ (db : Lmdb) (side : Bytes) (r : LmdbDb),
        build_db (demoPairs.map fun p => PyObj.tup p.1 p.2) demoLoader3 = some (db, side) ∧
          (openDb db (some side)).1 = some r ∧
          db.entries.length = demoPairs.length * (2 * 3 + 1) ∧
          r.length = db.entries.length / (2 * 3 + 1) ∧
          r.length = demoPairs.length :=
  ⟨by decide, C4_reader_length demoPairs demoLoader3 3 (by decide) (by decide)
    (by decide) (by decide)⟩

/-! ## C10: the side-file round trip strips entries -/

/-- C10 (amended): `write_list` strips each entry on write and `read_list`
strips each line on read, so a list in which no entry strips to text still
containing a newline round-trips to the list of stripped entries; entries
that are already stripped (hence keys without surrounding whitespace)
round-trip unchanged. -/
theorem C10_list_file_roundtrip (l : List Bytes) (h : ∀ s ∈ l, (10 : Nat) ∉ pyStrip s) :
    read_list (write_list l) = l.map pyStrip ∧
      ((∀ s ∈ l, pyStrip s = s) → read_list (write_list l) = l) := by
  refine ⟨read_list_write_list l h, fun hid => ?_⟩
  rw [read_list_write_list l h]
  calc l.map pyStrip = l.map id := List.map_congr_left hid
    _ = l := List.map_id _

/-- Witness for C10 at a concrete list: a padded entry comes back stripped,
and clean entries come back unchanged. -/
theorem C10_list_file_roundtrip_witness :
    (∀ s ∈ [bs " x ", bs "y"], (10 : Nat) ∉ pyStrip s) ∧
      (read_list (write_list [bs " x ", bs "y"]) = [bs " x ", bs "y"].map pyStrip ∧
        ((∀ s ∈ [bs " x ", bs "y"], pyStrip s = s) →
          read_list (write_list [bs " x ", bs "y"]) = [bs " x ", bs "y"])) :=
  ⟨by decide, C10_list_file_roundtrip [bs " x ", bs "y"] (by decide)⟩

/-- Counterexample to C10 as stated: an entry with an internal newline is
NOT re-read as its whitespace-stripped form — the write splits it into two
lines, so the re-read list has two entries. -/
theorem C10_list_file_counterexample :
    read_list (write_list [bs "a\nb"]) ≠ [bs "a\nb"].map pyStrip ∧
      read_list (write_list [bs "a\nb"]) = [bs "a", bs "b"] := by
  decide

/-! ## C5: deriving the case-key list from the stored keys -/

/-- Counterexample to C5 as stated: the stored key `"ab_lenc"` does not end
in `_len`, yet the code's derivation (`'_len' in key`, then `key[:-4]`)
collects it and strips its last four bytes, yielding `"ab_"`; the
spec-worded endswith derivation collects nothing. -/
theorem C5_derive_counterexample :
    deriveKeys ⟨[(bs "ab_lenc", bs "v")], LMDB_DEFAULT_MAPSIZE⟩ = [bs "ab_"] ∧
      spec_deriveKeys ⟨[(bs "ab_lenc", bs "v")], LMDB_DEFAULT_MAPSIZE⟩ = [] ∧
      deriveKeys ⟨[(bs "ab_lenc", bs "v")], LMDB_DEFAULT_MAPSIZE⟩ ≠
        spec_deriveKeys ⟨[(bs "ab_lenc", bs "v")], LMDB_DEFAULT_MAPSIZE⟩ := by
  decide

/-- C5 (amended): when the reader is opened with the side key file absent,
the derived CaseKeyList consists of exactly the stored keys that CONTAIN
`_len` as a substring, each with its last four bytes removed; the derived
list is persisted to the side file, and a successful open caches exactly
that list. -/
theorem C5_derive_keys (store : Lmdb) :
    (∀ k, k ∈ deriveKeys store ↔
        ∃ p ∈ store.entries, isInfixB (bs "_len") p.1 = true ∧
          k = p.1.take (p.1.length - 4)) ∧
      (openDb store none).2 = write_list (deriveKeys store) ∧
      ∀ r, (openDb store none).1 = some r → r._keys = deriveKeys store := by
  refine ⟨?_, ?_, ?_⟩
  · intro k
    rw [deriveKeys, List.mem_filterMap]
    constructor
    · rintro ⟨p, hp, hfp⟩
      refine ⟨p, (List.perm_insertionSort _ store.entries).mem_iff.mp hp, ?_⟩
      by_cases hin : isInfixB (bs "_len") p.1 = true
      · rw [if_pos hin] at hfp
        exact ⟨hin, (Option.some.injEq _ _ ▸ hfp).symm⟩
      · rw [if_neg hin] at hfp
        cases hfp
    · rintro ⟨p, hp, hin, hk⟩
      refine ⟨p, (List.perm_insertionSort _ store.entries).mem_iff.mpr hp, ?_⟩
      rw [if_pos hin, hk]
  · rfl
  · intro r hr
    have haux : ∀ (ks : List Bytes), openDbAux store ks = some r → r._keys = ks := by
      intro ks
      cases ks with
      | nil => intro h; cases h
      | cons k0 kt =>
        simp only [openDbAux]
        cases List.lookup (k0 ++ bs "_len") store.entries with
        | none => intro h; cases h
        | some v =>
          dsimp only
          cases decNatOpt v with
          | none => intro h; cases h
          | some m =>
            intro h
            cases Option.some.injEq _ _ ▸ h
            rfl
    exact haux (deriveKeys store) hr

/-- One-case store and the reader its first open produces, for the C5
witness. -/
def demoStore5 : Lmdb := ⟨[(bs "a_len", bs "1")], LMDB_DEFAULT_MAPSIZE⟩

def demoReader5 : LmdbDb := ⟨demoStore5, [bs "a"], 0⟩

/-- Witness for C5's amended claim at a concrete store: the open succeeds
and caches exactly the derived key list. -/
theorem C5_derive_keys_witness :
    (openDb demoStore5 none).1 = some demoReader5 ∧
      demoReader5._keys = deriveKeys demoStore5 :=
  ⟨by decide, (C5_derive_keys demoStore5).2.2 demoReader5 (by decide)⟩

/-! ## C6: idempotent open -/

/-- Loader with two arrays per case, for the C6 scenario. -/
def demoLoader6 : PyObj → List NDArray :=
  fun _ => [⟨[2], ⟨bs "uint8", 1⟩, [3, 4]⟩, ⟨[1], ⟨bs "uint8", 1⟩, [9]⟩]

/-- The store built from cases `["a", "b", "c"]` with two arrays each. -/
def demoStore6 : Lmdb :=
  match build_db [.str (bs "a"), .str (bs "b"), .str (bs "c")] demoLoader6 with
  | some x => x.1
  | none => ⟨[], 1⟩

/-- First open with no side key file present: derives the key list and
writes the side file. -/
def firstOpen6 : Option LmdbDb × Bytes := openDb demoStore6 none

/-- Second open, now reading the side file created by the first open. -/
def secondOpen6 : Option LmdbDb × Bytes := openDb demoStore6 (some firstOpen6.2)

/-- C6: for a store built from cases `["a", "b", "c"]` with two arrays each
and no side key file present, the first open derives the CaseKeyList
`["a", "b", "c"]` and the second open (through the side file the first open
created) yields the same CaseKeyList. -/
theorem C6_idempotent_open :
    firstOpen6.1.map (fun r => r._keys) = some [bs "a", bs "b", bs "c"] ∧
      secondOpen6.1.map (fun r => r._keys) = some [bs "a", bs "b", bs "c"] := by
  set_option maxRecDepth 100000 in decide

/-! ## C7: the key/payload dispatch over `cases` -/

/-- Counterexample to C7 as stated: for the bare identifier list `["ab"]`
(first element of length 2), the identifier is NOT both key and payload —
the dispatch unpacks the two-byte string into its characters, making `"a"`
the case key and `"b"` the loader payload. -/
theorem C7_cases_dispatch_counterexample :
    splitCases [PyObj.str (bs "ab")]
        = some ([PyObj.str (bs "a")], [PyObj.str (bs "b")]) ∧
      splitCases [PyObj.str (bs "ab")]
        ≠ some ([PyObj.str (bs "ab")], [PyObj.str (bs "ab")]) := by
  decide

theorem mapOpt_unpack2_len2 : ∀ ts : List Bytes, (∀ t ∈ ts, t.length = 2) →
    mapOpt unpack2 (ts.map PyObj.str) = some (ts.map (fun t => (t.take 1, t.drop 1))) := by
  intro ts
  induction ts with
  | nil => intro _; rfl
  | cons t0 tt ih =>
    intro hlen
    simp only [List.map_cons, mapOpt, unpack2, if_pos (hlen t0 (List.mem_cons_self t0 tt)),
      ih (fun x hx => hlen x (List.mem_cons_of_mem t0 hx))]

/-- C7 (amended): pairs dispatch as the claim says (first component the key,
second the payload); bare identifiers are both key and payload ONLY when the
first identifier's length is not 2; when every bare identifier has length 2
(as the dispatch then demands of each element), each is unpacked into its
two characters, the first becoming the key and the second the payload. -/
theorem C7_cases_dispatch (ps : List (Bytes × Bytes)) (hps : ps ≠ [])
    (ss : List Bytes) (hs : ss ≠ []) (hlen : (ss.head hs).length ≠ 2)
    (ts : List Bytes) (hts : ts ≠ []) (htlen : ∀ t ∈ ts, t.length = 2) :
    splitCases (ps.map fun p => PyObj.tup p.1 p.2)
        = some (ps.map fun p => PyObj.str p.1, ps.map fun p => PyObj.str p.2) ∧
      splitCases (ss.map PyObj.str) = some (ss.map PyObj.str, ss.map PyObj.str) ∧
      splitCases (ts.map PyObj.str)
        = some (ts.map fun t => PyObj.str (t.take 1),
            ts.map fun t => PyObj.str (t.drop 1)) := by
  refine ⟨splitCases_pairs ps hps, ?_, ?_⟩
  · cases ss with
    | nil => exact absurd rfl hs
    | cons s0 st =>
      show splitCases (PyObj.str s0 :: st.map PyObj.str) = _
      rw [splitCases, if_neg (show ¬ pyLen (PyObj.str s0) = 2 from hlen)]
      simp [List.map_cons]
  · cases ts with
    | nil => exact absurd rfl hts
    | cons t0 tt =>
      have h2 := mapOpt_unpack2_len2 (t0 :: tt) htlen
      simp only [List.map_cons] at h2
      show splitCases (PyObj.str t0 :: tt.map PyObj.str) = _
      rw [splitCases, if_pos (show pyLen (PyObj.str t0) = 2 from
        htlen t0 (List.mem_cons_self t0 tt))]
      rw [h2]
      simp [List.map_map, Function.comp]

/-- Witness for C7's amended claim at concrete pair, bare and length-2 bare
case lists. -/
theorem C7_cases_dispatch_witness :
    demoPairs ≠ [] ∧ ([bs "abc"] : List Bytes) ≠ [] ∧
      (splitCases (demoPairs.map fun p => PyObj.tup p.1 p.2)
          = some (demoPairs.map fun p => PyObj.str p.1,
              demoPairs.map fun p => PyObj.str p.2) ∧
        splitCases ([bs "abc"].map PyObj.str)
          = some ([bs "abc"].map PyObj.str, [bs "abc"].map PyObj.str) ∧
        splitCases ([bs "xy"].map PyObj.str)
          = some ([bs "xy"].map fun t => PyObj.str (t.take 1),
              [bs "xy"].map fun t => PyObj.str (t.drop 1))) :=
  ⟨by decide, by decide,
    C7_cases_dispatch demoPairs (by decide) [bs "abc"] (by decide) (by decide)
      [bs "xy"] (by decide) (by decide)⟩

/-! ## C8: missing-key lookup -/

/-- C8: looking up a key that is not in the CaseKeyList fails with
`KeyError(key)` and returns the reader unchanged — the store contents, the
cached key list and the length are untouched by the failed lookup. -/
theorem C8_missing_key (r : LmdbDb) (key : Bytes) (h : key ∉ r._keys) :
    getItem r key = (Except.error (PyErr.keyError key), r) := by
  rw [getItem, if_neg h]

/-- Witness for C8 at a concrete reader and absent key. -/
theorem C8_missing_key_witness :
    (bs "zz") ∉ demoReader5._keys ∧
      getItem demoReader5 (bs "zz")
        = (Except.error (PyErr.keyError (bs "zz")), demoReader5) :=
  ⟨by decide, C8_missing_key demoReader5 (bs "zz") (by decide)⟩

/-! ## C9: `__delitem__` -/

/-- C9: `__delitem__` never reaches the key-cache removal — for every reader
and every key it raises `TypeError` (from subscripting the bound method
`list.index`), so neither the in-memory CaseKeyList nor the backing store is
changed (no reader state is ever returned). -/
theorem C9_delitem_always_raises (r : LmdbDb) (key : Bytes) :
    delItem r key = Except.error PyErr.typeError := rfl

end Fexp
